import Mathlib

/-!
Verification of the directory-tree-context tool (`dumpy.py`).

The filesystem is modelled as a snapshot tree `FS`; a path is the list of its
components relative to the invocation directory, so that the string form of a
path is its components joined by the separator character, and the bare name of
a path is its last component.  Reading a file is modelled by the snapshot
carrying, for every file, either the text that `read_text` returns or the
message of the exception it raises.

Machine strings are compared character by character exactly as Python compares
them (by code point, shorter strict prefixes first).
-/

/-- A filesystem entry: a file together with the result of reading its text
(`Except.ok text`, or `Except.error message` when reading raises), or a
directory with its children. -/
inductive FS where
  | file (name : String) (read : Except String String)
  | dir (name : String) (children : List FS)

/-- The bare name of an entry. -/
def FS.name : FS → String
  | .file n _ => n
  | .dir n _ => n

/-- Embeds `Path.is_file()` for entries of the snapshot. -/
def FS.is_file : FS → Bool
  | .file _ _ => true
  | .dir _ _ => false

/-- Embeds `str(path)` for a relative path given by its components. -/
def pathStr : List String → String
  | [] => ""
  | [x] => x
  | x :: xs => x ++ "/" ++ pathStr xs

/-- Embeds `path.name`: the last component. -/
def pathName (p : List String) : String :=
  (p.getLast?).getD ""

/-- Embeds the bare names of `path.parents`: the names of the proper ancestor
paths, ending with the empty name of the relative anchor `.`. -/
def parentNames (p : List String) : List String :=
  p.dropLast.reverse ++ [""]

/-- Embeds `should_exclude` of `dumpy.py`: true when the bare name of some
ancestor is in the exclusion set, or the path's own bare name is, or the
ignore predicate holds of the full path string.  It is a total function. -/
def should_exclude (p : List String) (excl : List String) (gi : String → Bool) : Bool :=
  (parentNames p).any (fun a => excl.contains a) || excl.contains (pathName p) ||
    gi (pathStr p)

/-- Python's lexicographic comparison of strings as character lists, by code
point, with a strict prefix ordered before its extensions (this is `≤`). -/
def charListLe : List Char → List Char → Bool
  | [], _ => true
  | _ :: _, [] => false
  | a :: as, b :: bs =>
    if a.toNat < b.toNat then true
    else if b.toNat < a.toNat then false
    else charListLe as bs

/-- Python's `s <= t` on strings. -/
def strLe (s t : String) : Bool :=
  charListLe s.data t.data

/-- The sort key comparison of `generate_tree`: the Python tuple
`(x.is_file(), x.name)` compared lexicographically, `False < True`. -/
def treeKeyLeB (a b : FS) : Bool :=
  (!a.is_file && b.is_file) || (a.is_file == b.is_file && strLe a.name b.name)

/-- `treeKeyLeB` as a relation. -/
def treeKeyLe (a b : FS) : Prop :=
  treeKeyLeB a b = true

instance : DecidableRel treeKeyLe := fun a b => instDecidableEqBool (treeKeyLeB a b) true

/-- Sorting of `sorted(path.iterdir())` by plain path comparison, which for
siblings is comparison of the bare names. -/
def nameLe (a b : FS) : Prop :=
  strLe a.name b.name = true

instance : DecidableRel nameLe := fun a b => instDecidableEqBool (strLe a.name b.name) true

theorem charListLe_total : ∀ as bs : List Char, charListLe as bs = true ∨ charListLe bs as = true
  | [], _ => Or.inl rfl
  | _ :: _, [] => Or.inr rfl
  | a :: as, b :: bs => by
    rcases Nat.lt_trichotomy a.toNat b.toNat with h | h | h
    · left
      simp [charListLe, h]
    · have h2 : ¬ a.toNat < b.toNat := by omega
      have h3 : ¬ b.toNat < a.toNat := by omega
      rcases charListLe_total as bs with ih | ih
      · left
        simp [charListLe, h2, h3, ih]
      · right
        simp [charListLe, h2, h3, ih]
    · right
      simp [charListLe, h]

theorem charListLe_trans : ∀ as bs cs : List Char,
    charListLe as bs = true → charListLe bs cs = true → charListLe as cs = true
  | [], _, _, _, _ => rfl
  | a :: as, [], _, hab, _ => by simp [charListLe] at hab
  | _ :: _, _ :: _, [], _, hbc => by simp [charListLe] at hbc
  | a :: as, b :: bs, c :: cs, hab, hbc => by
    simp only [charListLe] at hab hbc ⊢
    by_cases h1 : a.toNat < b.toNat
    · by_cases h2 : b.toNat < c.toNat
      · rw [if_pos (by omega)]
      · by_cases h2b : c.toNat < b.toNat
        · rw [if_neg h2, if_pos h2b] at hbc
          exact absurd hbc (by simp)
        · rw [if_pos (by omega)]
    · by_cases h1b : b.toNat < a.toNat
      · rw [if_neg h1, if_pos h1b] at hab
        exact absurd hab (by simp)
      · rw [if_neg h1, if_neg h1b] at hab
        by_cases h2 : b.toNat < c.toNat
        · rw [if_pos (by omega)]
        · by_cases h2b : c.toNat < b.toNat
          · rw [if_neg h2, if_pos h2b] at hbc
            exact absurd hbc (by simp)
          · rw [if_neg h2, if_neg h2b] at hbc
            rw [if_neg (by omega), if_neg (by omega)]
            exact charListLe_trans as bs cs hab hbc

theorem strLe_total (s t : String) : strLe s t = true ∨ strLe t s = true :=
  charListLe_total s.data t.data

theorem strLe_trans {s t u : String} (h1 : strLe s t = true) (h2 : strLe t u = true) :
    strLe s u = true :=
  charListLe_trans s.data t.data u.data h1 h2

instance : IsTotal FS treeKeyLe := by
  constructor
  intro a b
  unfold treeKeyLe treeKeyLeB
  rcases strLe_total a.name b.name with h | h <;>
    cases ha : a.is_file <;> cases hb : b.is_file <;> simp [ha, hb, h]

instance : IsTrans FS treeKeyLe := by
  constructor
  intro a b c hab hbc
  unfold treeKeyLe treeKeyLeB at *
  cases ha : a.is_file <;> cases hb : b.is_file <;> cases hc : c.is_file <;>
    simp_all <;> exact strLe_trans hab hbc

instance : IsTotal FS nameLe := by
  constructor
  intro a b
  exact strLe_total a.name b.name

instance : IsTrans FS nameLe := by
  constructor
  intro a b c hab hbc
  exact strLe_trans hab hbc

/-- Embeds `sorted(list(path.iterdir()), key=lambda x: (x.is_file(), x.name))`:
a stable sort by the key `(is_file, name)`. -/
def sortTree (cs : List FS) : List FS :=
  List.insertionSort treeKeyLe cs

/-- Embeds `sorted(path.iterdir())`: a stable sort by bare name. -/
def sortByName (cs : List FS) : List FS :=
  List.insertionSort nameLe cs

theorem sizeOf_of_perm : ∀ {l1 l2 : List FS}, l1.Perm l2 → sizeOf l1 = sizeOf l2 := by
  intro l1 l2 h
  induction h with
  | nil => rfl
  | cons x _ ih => simp [ih]
  | swap x y l => simp; omega
  | trans _ _ ih1 ih2 => omega

theorem sizeOf_sortTree (cs : List FS) : sizeOf (sortTree cs) = sizeOf cs :=
  sizeOf_of_perm (List.perm_insertionSort treeKeyLe cs)

theorem sizeOf_sortByName (cs : List FS) : sizeOf (sortByName cs) = sizeOf cs :=
  sizeOf_of_perm (List.perm_insertionSort nameLe cs)

mutual

/-- Embeds `generate_tree` of `dumpy.py`.  `p` is the full path of the entry
`e`; an excluded path produces nothing, otherwise one line
`prefix ++ connector ++ bare name` is produced and, for a directory, the
children are processed in sorted order, the last child flagged as last. -/
def generate_tree (excl : List String) (gi : String → Bool) :
    FS → List String → String → Bool → List String
  | .file _ _, p, pref, isLast =>
    if should_exclude p excl gi then []
    else [pref ++ (if isLast then "└── " else "├── ") ++ pathName p]
  | .dir _ cs, p, pref, isLast =>
    if should_exclude p excl gi then []
    else
      (pref ++ (if isLast then "└── " else "├── ") ++ pathName p) ::
        treeChildren excl gi (pref ++ (if isLast then "    " else "│   ")) p (sortTree cs)
termination_by e _ _ _ => sizeOf e
decreasing_by
  all_goals simp [sizeOf_sortTree]

/-- The `for i, item in enumerate(contents)` loop of `generate_tree`:
`is_last_item` is true exactly for the final element of the list. -/
def treeChildren (excl : List String) (gi : String → Bool) :
    String → List String → List FS → List String
  | _, _, [] => []
  | pref2, p, [c] => generate_tree excl gi c (p ++ [c.name]) pref2 true
  | pref2, p, c :: c2 :: rest =>
      generate_tree excl gi c (p ++ [c.name]) pref2 false ++
        treeChildren excl gi pref2 p (c2 :: rest)
termination_by _ _ l => sizeOf l
decreasing_by
  all_goals simp
  all_goals omega

end

/-- Embeds `pattern.startswith(t)` / prefix test on characters. -/
def strStartsWith (s t : String) : Bool :=
  t.data.isPrefixOf s.data

/-- Embeds `s.endswith(t)` on characters. -/
def strEndsWith (s t : String) : Bool :=
  t.data.isSuffixOf s.data

/-- Embeds Python slicing `s[n:]` on characters. -/
def strDropChars (s : String) (n : Nat) : String :=
  String.mk (s.data.drop n)

/-- Embeds `c in s` for a single character. -/
def strContainsChar (s : String) (c : Char) : Bool :=
  s.data.contains c

/-- The per-pattern test of `matches_pattern`: exact equality with the full
path string or the bare name; else, for a pattern starting with `**/`,
equality of the bare name with the pattern after the marker; else, for a
pattern containing a separator, a suffix test on the full path string. -/
def matchesOne (pstr nm pat : String) : Bool :=
  if pat == pstr || pat == nm then true
  else if strStartsWith pat "**/" then nm == strDropChars pat 3
  else if strContainsChar pat '/' then strEndsWith pstr pat
  else false

/-- Embeds `matches_pattern` of `dumpy.py`: some pattern matches. -/
def matches_pattern (p : List String) (pats : List String) : Bool :=
  pats.any (fun pat => matchesOne (pathStr p) (pathName p) pat)

/-- The line-break test of Python `str.splitlines`. -/
def isLineBreak (c : Char) : Bool :=
  c = '\n' || c = '\r' || c = '\x0B' || c = '\x0C' ||
    c = '\x1C' || c = '\x1D' || c = '\x1E' || c = '\x85' ||
    c = '\u2028' || c = '\u2029'

/-- The two-character terminator `\r\n` counts as a single line break in
Python `str.splitlines`; it is rewritten to one break character up front. -/
def normCrLf : List Char → List Char
  | [] => []
  | '\r' :: '\n' :: cs => '\n' :: normCrLf cs
  | c :: cs => c :: normCrLf cs

/-- Embeds Python `str.splitlines()` (without keepends) on a `\r\n`-normalised
character list, with an accumulator for the current line: any break character
ends a line, and a trailing break adds no empty final line. -/
def splitBreaks (acc : List Char) : List Char → List (List Char)
  | [] => if acc = [] then [] else [acc.reverse]
  | c :: cs =>
    if isLineBreak c then acc.reverse :: splitBreaks [] cs
    else splitBreaks (c :: acc) cs

/-- Embeds `path.read_text().splitlines()`. -/
def pySplitlines (s : String) : List String :=
  (splitBreaks [] (normCrLf s.data)).map String.mk

/-- The separator of a content block: `'=' * (len(str(path)) + 6)`. -/
def sepLine (p : List String) : String :=
  String.mk (List.replicate ((pathStr p).data.length + 6) '=')

/-- The single list element `f"\nFile: {path}\n{'=' * (len(str(path)) + 6)}\n"`
appended before a file's content. -/
def headerCell (p : List String) : String :=
  "\n" ++ "File: " ++ pathStr p ++ "\n" ++ sepLine p ++ "\n"

mutual

/-- Embeds `get_file_contents` of `dumpy.py`: a matched, non-excluded file
contributes its header element and its content lines (or one error line); a
directory recurses into all children in plain sorted order with no exclusion
check of its own. -/
def get_file_contents (inc excl : List String) (gi : String → Bool) :
    FS → List String → List String
  | .file _ r, p =>
    if matches_pattern p inc && ! should_exclude p excl gi then
      headerCell p ::
        (match r with
          | .ok text => pySplitlines text
          | .error msg => ["Error reading file: " ++ msg])
    else []
  | .dir _ cs, p => contentsChildren inc excl gi p (sortByName cs)
termination_by e _ => sizeOf e
decreasing_by
  all_goals simp [sizeOf_sortByName]

/-- The `for item in sorted(path.iterdir())` loop of `get_file_contents`. -/
def contentsChildren (inc excl : List String) (gi : String → Bool) :
    List String → List FS → List String
  | _, [] => []
  | p, c :: rest =>
      get_file_contents inc excl gi c (p ++ [c.name]) ++
        contentsChildren inc excl gi p rest
termination_by _ l => sizeOf l
decreasing_by
  all_goals simp
  all_goals omega

end

mutual

/-- Modelled from the spec: the variant traversal of §4.3/§9 that applies the
exclusion check to directories and prunes an excluded directory before
descending, files being handled exactly as `get_file_contents` handles them. -/
def get_file_contents_pruned (inc excl : List String) (gi : String → Bool) :
    FS → List String → List String
  | .file _ r, p =>
    if matches_pattern p inc && ! should_exclude p excl gi then
      headerCell p ::
        (match r with
          | .ok text => pySplitlines text
          | .error msg => ["Error reading file: " ++ msg])
    else []
  | .dir _ cs, p =>
    if should_exclude p excl gi then []
    else prunedChildren inc excl gi p (sortByName cs)
termination_by e _ => sizeOf e
decreasing_by
  all_goals simp [sizeOf_sortByName]

/-- The children loop of the pruning variant. -/
def prunedChildren (inc excl : List String) (gi : String → Bool) :
    List String → List FS → List String
  | _, [] => []
  | p, c :: rest =>
      get_file_contents_pruned inc excl gi c (p ++ [c.name]) ++
        prunedChildren inc excl gi p rest
termination_by _ l => sizeOf l
decreasing_by
  all_goals simp
  all_goals omega

end

/-- Splitting a cell of the final document at the newline characters that
`'\n'.join` treats as line boundaries (keeps empty segments). -/
def splitNlAux (acc : List Char) : List Char → List (List Char)
  | [] => [acc.reverse]
  | c :: cs =>
    if c = '\n' then acc.reverse :: splitNlAux [] cs
    else splitNlAux (c :: acc) cs

/-- The lines a single list element occupies in the newline-joined document. -/
def cellLines (s : String) : List String :=
  (splitNlAux [] s.data).map String.mk

/-- The line sequence of `'\n'.join(cells)`: since the join inserts a newline
between consecutive cells, the lines of the document are the concatenation of
the lines of the cells. -/
def renderedLines (cells : List String) : List String :=
  (cells.map cellLines).flatten

/-- Embeds the list `tree_lines + content_lines` that `main` joins with
newlines and writes out. -/
def main_output_cells (e : FS) (root : List String)
    (inc excl : List String) (gi : String → Bool) : List String :=
  (["Directory Structure:", "-------------------"] ++ generate_tree excl gi e root "" true) ++
    (if inc.isEmpty then []
     else ["\nFile Contents:", "-------------"] ++ get_file_contents inc excl gi e root)

/-- Joining lines with the newline character, as a reference description of a
text whose line decomposition is known. -/
def joinNl : List String → String
  | [] => ""
  | [x] => x
  | x :: xs => x ++ "\n" ++ joinNl xs

/-! ## Unfolding lemmas for the traversals -/

theorem generate_tree_file (excl : List String) (gi : String → Bool) (n : String)
    (r : Except String String) (p : List String) (pref : String) (isLast : Bool) :
    generate_tree excl gi (.file n r) p pref isLast =
      if should_exclude p excl gi then []
      else [pref ++ (if isLast then "└── " else "├── ") ++ pathName p] := by
  simp [generate_tree]

theorem generate_tree_dir (excl : List String) (gi : String → Bool) (n : String)
    (cs : List FS) (p : List String) (pref : String) (isLast : Bool) :
    generate_tree excl gi (.dir n cs) p pref isLast =
      if should_exclude p excl gi then []
      else
        (pref ++ (if isLast then "└── " else "├── ") ++ pathName p) ::
          treeChildren excl gi (pref ++ (if isLast then "    " else "│   ")) p (sortTree cs) := by
  simp [generate_tree]

theorem treeChildren_nil (excl : List String) (gi : String → Bool) (pref2 : String)
    (p : List String) : treeChildren excl gi pref2 p [] = [] := by
  simp [treeChildren]

theorem treeChildren_single (excl : List String) (gi : String → Bool) (pref2 : String)
    (p : List String) (c : FS) :
    treeChildren excl gi pref2 p [c] = generate_tree excl gi c (p ++ [c.name]) pref2 true := by
  simp [treeChildren]

theorem treeChildren_cons2 (excl : List String) (gi : String → Bool) (pref2 : String)
    (p : List String) (c c2 : FS) (rest : List FS) :
    treeChildren excl gi pref2 p (c :: c2 :: rest) =
      generate_tree excl gi c (p ++ [c.name]) pref2 false ++
        treeChildren excl gi pref2 p (c2 :: rest) := by
  simp [treeChildren]

theorem get_file_contents_file (inc excl : List String) (gi : String → Bool) (n : String)
    (r : Except String String) (p : List String) :
    get_file_contents inc excl gi (.file n r) p =
      if matches_pattern p inc = true ∧ should_exclude p excl gi = false then
        headerCell p ::
          (match r with
            | .ok text => pySplitlines text
            | .error msg => ["Error reading file: " ++ msg])
      else [] := by
  cases r <;> simp [get_file_contents]

theorem get_file_contents_dir (inc excl : List String) (gi : String → Bool) (n : String)
    (cs : List FS) (p : List String) :
    get_file_contents inc excl gi (.dir n cs) p =
      contentsChildren inc excl gi p (sortByName cs) := by
  simp [get_file_contents]

theorem contentsChildren_nil (inc excl : List String) (gi : String → Bool) (p : List String) :
    contentsChildren inc excl gi p [] = [] := by
  simp [contentsChildren]

theorem contentsChildren_cons (inc excl : List String) (gi : String → Bool) (p : List String)
    (c : FS) (rest : List FS) :
    contentsChildren inc excl gi p (c :: rest) =
      get_file_contents inc excl gi c (p ++ [c.name]) ++ contentsChildren inc excl gi p rest := by
  simp [contentsChildren]

theorem pruned_file (inc excl : List String) (gi : String → Bool) (n : String)
    (r : Except String String) (p : List String) :
    get_file_contents_pruned inc excl gi (.file n r) p =
      if matches_pattern p inc = true ∧ should_exclude p excl gi = false then
        headerCell p ::
          (match r with
            | .ok text => pySplitlines text
            | .error msg => ["Error reading file: " ++ msg])
      else [] := by
  cases r <;> simp [get_file_contents_pruned]

theorem pruned_dir (inc excl : List String) (gi : String → Bool) (n : String)
    (cs : List FS) (p : List String) :
    get_file_contents_pruned inc excl gi (.dir n cs) p =
      if should_exclude p excl gi then []
      else prunedChildren inc excl gi p (sortByName cs) := by
  simp [get_file_contents_pruned]

theorem prunedChildren_nil (inc excl : List String) (gi : String → Bool) (p : List String) :
    prunedChildren inc excl gi p [] = [] := by
  simp [prunedChildren]

theorem prunedChildren_cons (inc excl : List String) (gi : String → Bool) (p : List String)
    (c : FS) (rest : List FS) :
    prunedChildren inc excl gi p (c :: rest) =
      get_file_contents_pruned inc excl gi c (p ++ [c.name]) ++
        prunedChildren inc excl gi p rest := by
  simp [prunedChildren]

/-- Induction over the snapshot with membership access to directory children. -/
theorem FS.recMem {motive : FS → Prop}
    (hfile : ∀ n r, motive (.file n r))
    (hdir : ∀ n cs, (∀ c, c ∈ cs → motive c) → motive (.dir n cs)) :
    ∀ e, motive e
  | .file n r => hfile n r
  | .dir n cs => hdir n cs (fun c hc => FS.recMem hfile hdir c)
termination_by e => sizeOf e
decreasing_by
  have := List.sizeOf_lt_of_mem hc
  simp
  omega

/-! ## Path classifier: C2 -/

/-- C2: `should_exclude` returns true exactly when some ancestor's bare name is
in the exclusion set, or the path's own bare name is, or the ignore predicate
holds of the full path string; otherwise it returns false.  Being a total
function of its three arguments, it can raise no error. -/
theorem spec_c2 (p excl : List String) (gi : String → Bool) :
    should_exclude p excl gi = true ↔
      ((∃ a ∈ parentNames p, a ∈ excl) ∨ pathName p ∈ excl ∨ gi (pathStr p) = true) := by
  simp only [should_exclude, List.any_eq_true, List.contains, List.elem_iff, Bool.or_eq_true]
  rw [or_assoc]

/-! ## Inclusion patterns: C3 and C10 -/

theorem matchesOne_iff (pstr nm pat : String) :
    matchesOne pstr nm pat = true ↔
      ((pat = pstr ∨ pat = nm) ∨
        (strStartsWith pat "**/" = true ∧ nm = strDropChars pat 3) ∨
        (strStartsWith pat "**/" = false ∧ strContainsChar pat '/' = true ∧
          strEndsWith pstr pat = true)) := by
  unfold matchesOne
  by_cases h1 : pat = pstr ∨ pat = nm
  · have hb : (pat == pstr || pat == nm) = true := by
      rcases h1 with h | h
      · subst h
        simp
      · subst h
        simp
    rw [if_pos hb]
    exact ⟨fun _ => Or.inl h1, fun _ => rfl⟩
  · have hne : ¬ (pat == pstr || pat == nm) = true := by
      rcases not_or.mp h1 with ⟨ha, hb⟩
      simp [ha, hb]
    rw [if_neg hne]
    by_cases h2 : strStartsWith pat "**/" = true
    · rw [if_pos h2]
      constructor
      · intro h
        exact Or.inr (Or.inl ⟨h2, eq_of_beq h⟩)
      · intro h
        rcases h with h | ⟨_, h⟩ | ⟨hf, _⟩
        · exact absurd h h1
        · rw [h]
          exact beq_self_eq_true _
        · rw [h2] at hf
          exact absurd hf (by simp)
    · have h2f : strStartsWith pat "**/" = false := by simpa using h2
      rw [if_neg h2]
      by_cases h3 : strContainsChar pat '/' = true
      · rw [if_pos h3]
        constructor
        · intro h
          exact Or.inr (Or.inr ⟨h2f, h3, h⟩)
        · intro h
          rcases h with h | ⟨hs, _⟩ | ⟨_, _, h⟩
          · exact absurd h h1
          · rw [h2f] at hs
            exact absurd hs (by simp)
          · exact h
      · have h3f : strContainsChar pat '/' = false := by simpa using h3
        rw [if_neg h3]
        constructor
        · intro h
          exact absurd h (by simp)
        · intro h
          rcases h with h | ⟨hs, _⟩ | ⟨_, hc2, _⟩
          · exact absurd h h1
          · rw [h2f] at hs
            exact absurd hs (by simp)
          · rw [h3f] at hc2
            exact absurd hc2 (by simp)

/-- C3: `matches_pattern` holds exactly when some pattern matches under the
ordered three-case rule (exact equality with the full path string or the bare
name; any-depth marker `**/` with the bare name equal to the remainder of the
pattern; otherwise a pattern containing a separator that the full path string
ends with), and the empty pattern set yields false rather than an error. -/
theorem spec_c3 :
    (∀ (p : List String) (pats : List String),
      matches_pattern p pats = true ↔
        ∃ pat ∈ pats,
          ((pat = pathStr p ∨ pat = pathName p) ∨
            (strStartsWith pat "**/" = true ∧ pathName p = strDropChars pat 3) ∨
            (strStartsWith pat "**/" = false ∧ strContainsChar pat '/' = true ∧
              strEndsWith (pathStr p) pat = true))) ∧
    ∀ p : List String, matches_pattern p [] = false := by
  constructor
  · intro p pats
    simp [matches_pattern, List.any_eq_true, matchesOne_iff]
  · intro p
    rfl

/-- C10: a pattern with no any-depth marker and no separator matches only by
exact equality with the full path string or the bare name, so `*.py` matches
only a file literally named `*.py` and not `src/main.py`. -/
theorem spec_c10 :
    (∀ (pat : String) (p : List String),
      strStartsWith pat "**/" = false → strContainsChar pat '/' = false →
      (matches_pattern p [pat] = true ↔ (pat = pathStr p ∨ pat = pathName p))) ∧
    matches_pattern ["src", "main.py"] ["*.py"] = false ∧
    matches_pattern ["src", "*.py"] ["*.py"] = true := by
  refine ⟨?_, by decide, by decide⟩
  intro pat p h1 h2
  simp [matches_pattern, matchesOne_iff, h1, h2]

/-- Witness for C10 at the pattern `*.py` and the path `src/main.py`. -/
theorem spec_c10_witness :
    matches_pattern ["src", "main.py"] ["*.py"] = true ↔
      ("*.py" = pathStr ["src", "main.py"] ∨ "*.py" = pathName ["src", "main.py"]) :=
  spec_c10.1 "*.py" ["src", "main.py"] (by decide) (by decide)

/-! ## Transitive exclusion by bare names: C1 -/

theorem nameChain_should_exclude {p excl : List String} (gi : String → Bool)
    (h : p.any (fun a => excl.contains a) = true) :
    should_exclude p excl gi = true := by
  obtain ⟨x, hx, hcx⟩ := List.any_eq_true.mp h
  have hp : p ≠ [] := by
    rintro rfl
    simp at hx
  rw [← List.dropLast_append_getLast hp] at hx
  rcases List.mem_append.mp hx with h1 | h2
  · have : (parentNames p).any (fun a => excl.contains a) = true := by
      refine List.any_eq_true.mpr ⟨x, ?_, hcx⟩
      unfold parentNames
      exact List.mem_append.mpr (Or.inl (List.mem_reverse.mpr h1))
    unfold should_exclude
    rw [this]
    simp
  · have hx2 : x = p.getLast hp := by simpa using h2
    have hname : pathName p = x := by
      unfold pathName
      rw [List.getLast?_eq_getLast_of_ne_nil hp, hx2]
      rfl
    have : excl.contains (pathName p) = true := by rw [hname]; exact hcx
    unfold should_exclude
    rw [this]
    simp

theorem contentsChildren_eq_nil (inc excl : List String) (gi : String → Bool)
    (p : List String) :
    ∀ l : List FS, (∀ c ∈ l, get_file_contents inc excl gi c (p ++ [c.name]) = []) →
      contentsChildren inc excl gi p l = []
  | [], _ => contentsChildren_nil inc excl gi p
  | c :: rest, h => by
    rw [contentsChildren_cons, h c (by simp),
      contentsChildren_eq_nil inc excl gi p rest (fun d hd => h d (by simp [hd]))]
    rfl

theorem gfc_nil_of_nameChain (inc excl : List String) (gi : String → Bool) :
    ∀ e : FS, ∀ p : List String, p.any (fun a => excl.contains a) = true →
      get_file_contents inc excl gi e p = [] := by
  intro e
  induction e using FS.recMem with
  | hfile n r =>
    intro p hp
    rw [get_file_contents_file, if_neg]
    rintro ⟨-, hs⟩
    rw [nameChain_should_exclude gi hp] at hs
    exact absurd hs (by simp)
  | hdir n cs ih =>
    intro p hp
    rw [get_file_contents_dir]
    refine contentsChildren_eq_nil inc excl gi p _ (fun c hc => ?_)
    have hcm : c ∈ cs := by
      have := List.Perm.mem_iff (List.perm_insertionSort nameLe cs) |>.mp hc
      exact this
    refine ih c hcm (p ++ [c.name]) ?_
    rw [List.any_append, hp]
    rfl

/-- C1: if the bare name of a path, or of one of its ancestors, is in the
exclusion set (all such names are components of the path), then the subtree at
that path contributes nothing to the tree output or to the content output; in
particular no descendant of a name-excluded directory ever appears, whether
the traversal prunes at the directory (tree) or filters at each file
(contents). -/
theorem spec_c1 (e : FS) (p : List String) (inc excl : List String) (gi : String → Bool)
    (pref : String) (isLast : Bool)
    (h : p.any (fun a => excl.contains a) = true) :
    generate_tree excl gi e p pref isLast = [] ∧
      get_file_contents inc excl gi e p = [] := by
  constructor
  · cases e with
    | file n r => rw [generate_tree_file, if_pos (nameChain_should_exclude gi h)]
    | dir n cs => rw [generate_tree_dir, if_pos (nameChain_should_exclude gi h)]
  · exact gfc_nil_of_nameChain inc excl gi e p h

/-- Witness for C1: a file under a `.git` directory produces no output. -/
theorem spec_c1_witness :
    generate_tree [".git"] (fun _ => false)
        (.dir "objects" [.file "x" (.ok "data")]) ["repo", ".git", "objects"] "" true = [] ∧
      get_file_contents ["x"] [".git"] (fun _ => false)
        (.dir "objects" [.file "x" (.ok "data")]) ["repo", ".git", "objects"] = [] :=
  spec_c1 (.dir "objects" [.file "x" (.ok "data")]) ["repo", ".git", "objects"]
    ["x"] [".git"] (fun _ => false) "" true (by decide)

/-! ## Connector glyphs and sibling ordering: C5 and C9 -/

/-- C5: the last-child flag — hence the corner connector — is decided by the
position in the full, unfiltered, sorted sibling list (only the final element
of the processed list receives it), so when a last sibling is excluded the
visually last surviving entry still gets a tee (concrete snapshot: `r`
containing `a` and the excluded `zz`), and the root call receives the
last-child flag, so a non-excluded root line always starts with the corner
connector. -/
theorem spec_c5 :
    (∀ (excl : List String) (gi : String → Bool) (pref2 : String) (p : List String) (c : FS),
      treeChildren excl gi pref2 p [c] = generate_tree excl gi c (p ++ [c.name]) pref2 true) ∧
    (∀ (excl : List String) (gi : String → Bool) (pref2 : String) (p : List String)
      (c c2 : FS) (rest : List FS),
      treeChildren excl gi pref2 p (c :: c2 :: rest) =
        generate_tree excl gi c (p ++ [c.name]) pref2 false ++
          treeChildren excl gi pref2 p (c2 :: rest)) ∧
    generate_tree ["zz"] (fun _ => false)
        (.dir "r" [.file "a" (.ok ""), .file "zz" (.ok "")]) ["r"] "" true =
      ["└── r", "    ├── a"] ∧
    (∀ (excl : List String) (gi : String → Bool) (e : FS) (p : List String),
      should_exclude p excl gi = false →
      (generate_tree excl gi e p "" true).head? = some ("└── " ++ pathName p)) := by
  refine ⟨treeChildren_single, treeChildren_cons2, ?_, ?_⟩
  · rw [generate_tree_dir, if_neg (by decide)]
    rw [show sortTree [FS.file "a" (.ok ""), FS.file "zz" (.ok "")] =
      [FS.file "a" (.ok ""), FS.file "zz" (.ok "")] from rfl]
    rw [treeChildren_cons2, treeChildren_single, generate_tree_file, generate_tree_file]
    decide
  · intro excl gi e p h
    have hne : ¬ should_exclude p excl gi = true := by simp [h]
    cases e with
    | file n r =>
      rw [generate_tree_file, if_neg hne]
      rfl
    | dir n cs =>
      rw [generate_tree_dir, if_neg hne]
      rfl

/-- Witness for C5: its universally quantified root-corner part applied at a
concrete non-excluded file. -/
theorem spec_c5_witness :
    (generate_tree [] (fun _ => false) (.file "a" (.ok "")) ["a"] "" true).head? =
      some ("└── " ++ pathName ["a"]) :=
  spec_c5.2.2.2 [] (fun _ => false) (.file "a" (.ok "")) ["a"] (by decide)

/-- C9: for a non-excluded directory, `generate_tree` renders the children in
the order `sortTree`, which is a permutation of the sibling list sorted by the
key `(is_file, name)` ascending — directories (`is_file = false`) before
files, and alphabetically by name within each group — so the surviving
directory children are listed before the surviving file children, each group
alphabetical. -/
theorem spec_c9 :
    (∀ (excl : List String) (gi : String → Bool) (n : String) (cs : List FS)
      (p : List String) (pref : String) (isLast : Bool),
      should_exclude p excl gi = false →
      generate_tree excl gi (.dir n cs) p pref isLast =
        (pref ++ (if isLast then "└── " else "├── ") ++ pathName p) ::
          treeChildren excl gi (pref ++ (if isLast then "    " else "│   ")) p (sortTree cs)) ∧
    (∀ cs : List FS, List.Sorted treeKeyLe (sortTree cs)) ∧
    (∀ cs : List FS, (sortTree cs).Perm cs) ∧
    (∀ a b : FS, treeKeyLe a b ↔
      ((a.is_file = false ∧ b.is_file = true) ∨
        (a.is_file = b.is_file ∧ charListLe a.name.data b.name.data = true))) := by
  refine ⟨?_, ?_, ?_, ?_⟩
  · intro excl gi n cs p pref isLast h
    rw [generate_tree_dir, if_neg (by simp [h])]
  · intro cs
    exact List.sorted_insertionSort treeKeyLe cs
  · intro cs
    exact List.perm_insertionSort treeKeyLe cs
  · intro a b
    unfold treeKeyLe treeKeyLeB strLe
    cases ha : a.is_file <;> cases hb : b.is_file <;> simp [ha, hb]

/-- Witness for C9: its hypothesis-bearing part applied at a concrete
directory whose children are a file and a subdirectory. -/
theorem spec_c9_witness :
    generate_tree [] (fun _ => false)
        (.dir "r" [.file "b.txt" (.ok ""), .dir "a" []]) ["r"] "" true =
      ("" ++ (if true then "└── " else "├── ") ++ pathName ["r"]) ::
        treeChildren [] (fun _ => false) ("" ++ (if true then "    " else "│   ")) ["r"]
          (sortTree [.file "b.txt" (.ok ""), .dir "a" []]) :=
  spec_c9.1 [] (fun _ => false) "r" [.file "b.txt" (.ok ""), .dir "a" []] ["r"] "" true
    (by decide)

/-! ## Verbatim content: C6 and C8 -/

theorem normCrLf_cons {c : Char} (cs : List Char) (h : ¬ c = '\r') :
    normCrLf (c :: cs) = c :: normCrLf cs := by
  cases cs with
  | nil => simp [normCrLf]
  | cons d cs2 =>
    by_cases hd : d = '\n'
    · subst hd
      simp [normCrLf, h]
    · simp [normCrLf, h, hd]

theorem normCrLf_break_free : ∀ l : List Char, (∀ c ∈ l, isLineBreak c = false) →
    normCrLf l = l
  | [], _ => rfl
  | c :: l, h => by
    have hc : ¬ c = '\r' := by
      intro hc
      have := h c (by simp)
      rw [hc] at this
      simp [isLineBreak] at this
    rw [normCrLf_cons l hc, normCrLf_break_free l (fun d hd => h d (by simp [hd]))]

theorem normCrLf_append_nl : ∀ (l1 l2 : List Char), (∀ c ∈ l1, isLineBreak c = false) →
    normCrLf (l1 ++ '\n' :: l2) = l1 ++ '\n' :: normCrLf l2
  | [], l2, _ => by
    rw [List.nil_append, normCrLf_cons l2 (by decide), List.nil_append]
  | c :: l1, l2, h => by
    have hc : ¬ c = '\r' := by
      intro hc
      have := h c (by simp)
      rw [hc] at this
      simp [isLineBreak] at this
    rw [List.cons_append, normCrLf_cons _ hc,
      normCrLf_append_nl l1 l2 (fun d hd => h d (by simp [hd])), List.cons_append]

theorem splitBreaks_no_break : ∀ (l acc : List Char), (∀ c ∈ l, isLineBreak c = false) →
    splitBreaks acc l = if acc.reverse ++ l = [] then [] else [acc.reverse ++ l]
  | [], acc, _ => by simp [splitBreaks]
  | c :: l, acc, h => by
    have hc : isLineBreak c = false := h c (by simp)
    have hrest : ∀ x ∈ l, isLineBreak x = false := fun x hx => h x (by simp [hx])
    rw [splitBreaks, if_neg (by simp [hc])]
    rw [splitBreaks_no_break l (c :: acc) hrest]
    simp

theorem splitBreaks_append_nl : ∀ (l1 l2 acc : List Char),
    (∀ c ∈ l1, isLineBreak c = false) →
    splitBreaks acc (l1 ++ '\n' :: l2) = (acc.reverse ++ l1) :: splitBreaks [] l2
  | [], l2, acc, _ => by
    rw [List.nil_append, splitBreaks, if_pos (by decide)]
    simp
  | c :: l1, l2, acc, h => by
    have hc : isLineBreak c = false := h c (by simp)
    rw [List.cons_append, splitBreaks, if_neg (by simp [hc])]
    rw [splitBreaks_append_nl l1 l2 (c :: acc) (fun d hd => h d (by simp [hd]))]
    simp

theorem pySplitlines_joinNl : ∀ ls : List String, ls ≠ [] →
    (∀ l ∈ ls, ∀ c ∈ l.data, isLineBreak c = false) →
    ls.getLast? ≠ some "" → pySplitlines (joinNl ls) = ls
  | [], h, _, _ => absurd rfl h
  | [x], _, h, hlast => by
    have hx : x.data ≠ [] := by
      intro hh
      apply hlast
      have : x = "" := by
        have := congrArg String.mk hh
        exact this
      rw [this]
      rfl
    have hbf : ∀ c ∈ x.data, isLineBreak c = false := h x (by simp)
    show (splitBreaks [] (normCrLf (joinNl [x]).data)).map String.mk = [x]
    rw [show joinNl [x] = x from rfl]
    rw [normCrLf_break_free x.data hbf, splitBreaks_no_break x.data [] hbf]
    rw [if_neg (by simpa using hx)]
    simp
  | x :: y :: t, _, h, hlast => by
    have hbfx : ∀ c ∈ x.data, isLineBreak c = false := h x (by simp)
    have ih := pySplitlines_joinNl (y :: t) (by simp)
      (fun l hl => h l (by simp [hl]))
      (by rwa [List.getLast?_cons_cons] at hlast)
    show (splitBreaks [] (normCrLf (joinNl (x :: y :: t)).data)).map String.mk = x :: y :: t
    rw [show joinNl (x :: y :: t) = x ++ "\n" ++ joinNl (y :: t) from rfl]
    rw [show (x ++ "\n" ++ joinNl (y :: t)).data = x.data ++ '\n' :: (joinNl (y :: t)).data by
      simp [String.data_append]]
    rw [normCrLf_append_nl _ _ hbfx, splitBreaks_append_nl _ _ [] hbfx]
    unfold pySplitlines at ih
    simp only [List.map_cons, List.reverse_nil, List.nil_append, ih]

/-- C6: a matched, non-excluded file that reads successfully contributes
exactly its header element followed by the verbatim lines of its text — no
line added, removed or altered — and the line decomposition is the inverse of
joining the lines with newlines: a text assembled from break-free lines (last
line nonempty) is split back into exactly those lines. -/
theorem spec_c6 :
    (∀ (n text : String) (p inc excl : List String) (gi : String → Bool),
      matches_pattern p inc = true → should_exclude p excl gi = false →
      get_file_contents inc excl gi (.file n (.ok text)) p =
        headerCell p :: pySplitlines text) ∧
    (∀ ls : List String, ls ≠ [] →
      (∀ l ∈ ls, ∀ c ∈ l.data, isLineBreak c = false) →
      ls.getLast? ≠ some "" → pySplitlines (joinNl ls) = ls) := by
  constructor
  · intro n text p inc excl gi h1 h2
    rw [get_file_contents_file, if_pos ⟨h1, h2⟩]
  · exact pySplitlines_joinNl

/-- Witness for C6: a two-line file under the root, matched by bare name. -/
theorem spec_c6_witness :
    get_file_contents ["a.txt"] [] (fun _ => false)
        (.file "a.txt" (.ok "hello\nworld")) ["r", "a.txt"] =
      headerCell ["r", "a.txt"] :: pySplitlines "hello\nworld" ∧
    pySplitlines (joinNl ["hello", "world"]) = ["hello", "world"] :=
  ⟨spec_c6.1 "a.txt" "hello\nworld" ["r", "a.txt"] ["a.txt"] [] (fun _ => false)
      (by decide) (by decide),
    spec_c6.2 ["hello", "world"] (by decide) (by decide) (by decide)⟩

theorem contentsChildren_append (inc excl : List String) (gi : String → Bool)
    (p : List String) :
    ∀ l1 l2 : List FS, contentsChildren inc excl gi p (l1 ++ l2) =
      contentsChildren inc excl gi p l1 ++ contentsChildren inc excl gi p l2
  | [], l2 => by rw [List.nil_append, contentsChildren_nil, List.nil_append]
  | c :: l1, l2 => by
    rw [List.cons_append, contentsChildren_cons, contentsChildren_cons,
      contentsChildren_append inc excl gi p l1 l2, List.append_assoc]

/-- C8: a matched, non-excluded file whose read fails contributes exactly its
header element and the single line `Error reading file: <message>` in place of
content; and the children loop of the extractor is compositional — the output
of later siblings is appended unchanged after the output of earlier ones, so a
per-file failure never aborts the traversal. -/
theorem spec_c8 :
    (∀ (n msg : String) (p inc excl : List String) (gi : String → Bool),
      matches_pattern p inc = true → should_exclude p excl gi = false →
      get_file_contents inc excl gi (.file n (.error msg)) p =
        [headerCell p, "Error reading file: " ++ msg]) ∧
    (∀ (inc excl : List String) (gi : String → Bool) (p : List String) (l1 l2 : List FS),
      contentsChildren inc excl gi p (l1 ++ l2) =
        contentsChildren inc excl gi p l1 ++ contentsChildren inc excl gi p l2) := by
  constructor
  · intro n msg p inc excl gi h1 h2
    rw [get_file_contents_file, if_pos ⟨h1, h2⟩]
  · intro inc excl gi p l1 l2
    exact contentsChildren_append inc excl gi p l1 l2

/-- Witness for C8: an unreadable matched file followed by a readable sibling;
the error line appears and the sibling is still processed. -/
theorem spec_c8_witness :
    get_file_contents ["bin.dat"] [] (fun _ => false)
        (.file "bin.dat" (.error "oops")) ["r", "bin.dat"] =
      [headerCell ["r", "bin.dat"], "Error reading file: " ++ "oops"] :=
  spec_c8.1 "bin.dat" "oops" ["r", "bin.dat"] ["bin.dat"] [] (fun _ => false)
    (by decide) (by decide)

/-! ## Block layout in the final document: C7 -/

theorem splitNlAux_no_nl : ∀ (l acc : List Char), (∀ c ∈ l, ¬ c = '\n') →
    splitNlAux acc l = [acc.reverse ++ l]
  | [], acc, _ => by simp [splitNlAux]
  | c :: l, acc, h => by
    rw [splitNlAux, if_neg (h c (by simp))]
    rw [splitNlAux_no_nl l (c :: acc) (fun d hd => h d (by simp [hd]))]
    simp

theorem splitNlAux_append : ∀ (l1 l2 acc : List Char), (∀ c ∈ l1, ¬ c = '\n') →
    splitNlAux acc (l1 ++ '\n' :: l2) = (acc.reverse ++ l1) :: splitNlAux [] l2
  | [], l2, acc, _ => by
    rw [List.nil_append, splitNlAux, if_pos rfl]
    simp
  | c :: l1, l2, acc, h => by
    rw [List.cons_append, splitNlAux, if_neg (h c (by simp))]
    rw [splitNlAux_append l1 l2 (c :: acc) (fun d hd => h d (by simp [hd]))]
    simp

theorem cellLines_no_nl (s : String) (h : ∀ c ∈ s.data, ¬ c = '\n') : cellLines s = [s] := by
  unfold cellLines
  rw [splitNlAux_no_nl s.data [] h]
  rfl

theorem cellLines_headerCell (p : List String) (h : ∀ c ∈ (pathStr p).data, ¬ c = '\n') :
    cellLines (headerCell p) = ["", "File: " ++ pathStr p, sepLine p, ""] := by
  have hA : ∀ c ∈ ("File: " ++ pathStr p).data, ¬ c = '\n' := by
    intro c hc
    rw [String.data_append] at hc
    rcases List.mem_append.mp hc with h1 | h2
    · have : c ∈ ['F', 'i', 'l', 'e', ':', ' '] := h1
      simp only [List.mem_cons, List.not_mem_nil, or_false] at this
      rcases this with rfl | rfl | rfl | rfl | rfl | rfl <;> decide
    · exact h c h2
  have hB : ∀ c ∈ (sepLine p).data, ¬ c = '\n' := by
    intro c hc
    have : c ∈ List.replicate ((pathStr p).data.length + 6) '=' := hc
    rw [List.eq_of_mem_replicate this]
    decide
  unfold cellLines headerCell
  rw [show ("\n" ++ "File: " ++ pathStr p ++ "\n" ++ sepLine p ++ "\n").data =
      '\n' :: (("File: " ++ pathStr p).data ++
        '\n' :: ((sepLine p).data ++ '\n' :: ([] : List Char))) by
    simp [String.data_append]]
  rw [splitNlAux, if_pos rfl]
  rw [splitNlAux_append _ _ [] hA]
  rw [splitNlAux_append _ _ [] hB]
  rw [splitNlAux]
  rfl

theorem splitBreaks_lines_break_free : ∀ (l acc : List Char),
    (∀ c ∈ acc, isLineBreak c = false) →
    ∀ r ∈ splitBreaks acc l, ∀ c ∈ r, isLineBreak c = false
  | [], acc, hacc => by
    rw [splitBreaks]
    intro r hr c hc
    by_cases ha : acc = []
    · rw [if_pos ha] at hr
      simp at hr
    · rw [if_neg ha] at hr
      have : r = acc.reverse := by simpa using hr
      subst this
      exact hacc c (List.mem_reverse.mp hc)
  | b :: l, acc, hacc => by
    rw [splitBreaks]
    by_cases hb : isLineBreak b
    · rw [if_pos hb]
      intro r hr c hc
      rcases List.mem_cons.mp hr with h1 | h2
      · subst h1
        exact hacc c (List.mem_reverse.mp hc)
      · exact splitBreaks_lines_break_free l [] (by simp) r h2 c hc
    · rw [if_neg hb]
      intro r hr c hc
      refine splitBreaks_lines_break_free l (b :: acc) ?_ r hr c hc
      intro d hd
      rcases List.mem_cons.mp hd with h1 | h2
      · subst h1
        exact eq_false_of_ne_true hb
      · exact hacc d h2

theorem pySplitlines_break_free (s : String) :
    ∀ l ∈ pySplitlines s, ∀ c ∈ l.data, isLineBreak c = false := by
  intro l hl c hcl
  unfold pySplitlines at hl
  obtain ⟨r, hr, rfl⟩ := List.mem_map.mp hl
  exact splitBreaks_lines_break_free _ [] (by simp) r hr c hcl

theorem flatten_cellLines_break_free : ∀ ls : List String,
    (∀ l ∈ ls, ∀ c ∈ l.data, ¬ c = '\n') → (ls.map cellLines).flatten = ls
  | [], _ => rfl
  | l :: ls, h => by
    rw [List.map_cons, List.flatten_cons, cellLines_no_nl l (h l (by simp)),
      flatten_cellLines_break_free ls (fun d hd => h d (by simp [hd]))]
    rfl

/-- C7 (amended): in the final newline-joined document, the block of a
matched, successfully read file occupies: one blank line, the header line
`File: <path>`, the separator line of `len(path)+6` equals signs, then —
because the header element itself ends with a newline and the join inserts
another — exactly one blank line, and only then the verbatim content lines. -/
theorem spec_c7_amended (n text : String) (p inc excl : List String) (gi : String → Bool)
    (h1 : matches_pattern p inc = true) (h2 : should_exclude p excl gi = false)
    (h3 : ∀ c ∈ (pathStr p).data, ¬ c = '\n') :
    renderedLines (get_file_contents inc excl gi (.file n (.ok text)) p) =
      ["", "File: " ++ pathStr p, sepLine p, ""] ++ pySplitlines text := by
  rw [get_file_contents_file, if_pos ⟨h1, h2⟩]
  unfold renderedLines
  rw [List.map_cons, List.flatten_cons, cellLines_headerCell p h3,
    flatten_cellLines_break_free (pySplitlines text) (fun l hl c hc hcn => by
      have := pySplitlines_break_free text l hl c hc
      rw [hcn] at this
      simp [isLineBreak] at this)]

/-- C7 counterexample: for the snapshot `r/a.txt` (content `hello`) with
inclusion pattern `a.txt`, the final document is not the layout the claim
describes, in which the first content line immediately follows the separator
line: an extra blank line stands between them. -/
theorem spec_c7_counterexample :
    renderedLines (main_output_cells (.dir "r" [.file "a.txt" (.ok "hello")]) ["r"]
        ["a.txt"] [] (fun _ => false)) ≠
      ["Directory Structure:", "-------------------", "└── r", "    └── a.txt",
        "", "File Contents:", "-------------",
        "", "File: r/a.txt", "=============", "hello"] := by
  have h1 : generate_tree [] (fun _ => false)
      (.dir "r" [.file "a.txt" (.ok "hello")]) ["r"] "" true = ["└── r", "    └── a.txt"] := by
    rw [generate_tree_dir,
      show sortTree [FS.file "a.txt" (.ok "hello")] = [FS.file "a.txt" (.ok "hello")] from rfl,
      treeChildren_single, generate_tree_file]
    decide
  have h2 : get_file_contents ["a.txt"] [] (fun _ => false)
      (.dir "r" [.file "a.txt" (.ok "hello")]) ["r"] =
      ["\nFile: r/a.txt\n=============\n", "hello"] := by
    rw [get_file_contents_dir,
      show sortByName [FS.file "a.txt" (.ok "hello")] = [FS.file "a.txt" (.ok "hello")] from rfl,
      contentsChildren_cons, contentsChildren_nil, get_file_contents_file]
    decide
  unfold main_output_cells
  rw [h1, h2]
  decide

/-- Witness for the amended C7 at a concrete matched file. -/
theorem spec_c7_witness :
    renderedLines (get_file_contents ["a.txt"] [] (fun _ => false)
        (.file "a.txt" (.ok "hello")) ["r", "a.txt"]) =
      ["", "File: " ++ pathStr ["r", "a.txt"], sepLine ["r", "a.txt"], ""] ++
        pySplitlines "hello" :=
  spec_c7_amended "a.txt" "hello" ["r", "a.txt"] ["a.txt"] [] (fun _ => false)
    (by decide) (by decide) (by decide)

/-! ## Pruning versus leaf filtering equivalence: C4 -/

theorem mem_of_mem_dropLast {x : String} {l : List String} (h : x ∈ l.dropLast) : x ∈ l := by
  by_cases hl : l = []
  · subst hl
    simp at h
  · rw [← List.dropLast_append_getLast hl]
    exact List.mem_append.mpr (Or.inl h)

theorem mem_parentNames_append {x : String} (p s : List String) (hs : s ≠ []) (hx : x ∈ p) :
    x ∈ parentNames (p ++ s) := by
  unfold parentNames
  refine List.mem_append.mpr (Or.inl ?_)
  rw [List.mem_reverse, List.dropLast_append_of_ne_nil p hs]
  exact List.mem_append.mpr (Or.inl hx)

theorem empty_mem_parentNames (q : List String) : "" ∈ parentNames q := by
  unfold parentNames
  exact List.mem_append.mpr (Or.inr (by simp))

theorem should_exclude_append (p s : List String) (excl : List String) (gi : String → Bool)
    (hcl : ∀ (q t : List String), t ≠ [] → gi (pathStr q) = true →
      gi (pathStr (q ++ t)) = true)
    (hs : s ≠ []) (h : should_exclude p excl gi = true) :
    should_exclude (p ++ s) excl gi = true := by
  unfold should_exclude at h ⊢
  simp only [Bool.or_eq_true] at h ⊢
  rcases h with (h | h) | h
  · obtain ⟨x, hx, hcx⟩ := List.any_eq_true.mp h
    unfold parentNames at hx
    rcases List.mem_append.mp hx with h1 | h2
    · have hxp : x ∈ p := mem_of_mem_dropLast (List.mem_reverse.mp h1)
      exact Or.inl (Or.inl (List.any_eq_true.mpr
        ⟨x, mem_parentNames_append p s hs hxp, hcx⟩))
    · have hx0 : x = "" := by simpa using h2
      subst hx0
      exact Or.inl (Or.inl (List.any_eq_true.mpr
        ⟨"", empty_mem_parentNames (p ++ s), hcx⟩))
  · by_cases hp : p = []
    · subst hp
      have : pathName ([] : List String) = "" := rfl
      rw [this] at h
      exact Or.inl (Or.inl (List.any_eq_true.mpr
        ⟨"", empty_mem_parentNames ([] ++ s), h⟩))
    · have hxp : pathName p ∈ p := by
        unfold pathName
        rw [List.getLast?_eq_getLast_of_ne_nil hp]
        exact List.getLast_mem hp
      exact Or.inl (Or.inl (List.any_eq_true.mpr
        ⟨pathName p, mem_parentNames_append p s hs hxp, h⟩))
  · exact Or.inr (hcl p s hs h)

theorem gfc_nil_under_excluded (inc excl : List String) (gi : String → Bool)
    (hcl : ∀ (q t : List String), t ≠ [] → gi (pathStr q) = true →
      gi (pathStr (q ++ t)) = true) :
    ∀ e : FS, ∀ p q : List String, q ≠ [] → should_exclude p excl gi = true →
      get_file_contents inc excl gi e (p ++ q) = [] := by
  intro e
  induction e using FS.recMem with
  | hfile n r =>
    intro p q hq hex
    rw [get_file_contents_file, if_neg]
    rintro ⟨-, hs⟩
    rw [should_exclude_append p q excl gi hcl hq hex] at hs
    exact absurd hs (by simp)
  | hdir n cs ih =>
    intro p q hq hex
    rw [get_file_contents_dir]
    refine contentsChildren_eq_nil inc excl gi (p ++ q) _ (fun c hc => ?_)
    have hcm : c ∈ cs := List.Perm.mem_iff (List.perm_insertionSort nameLe cs) |>.mp hc
    have := ih c hcm p (q ++ [c.name]) (by simp) hex
    rwa [← List.append_assoc] at this

theorem childrenCongr (inc excl : List String) (gi : String → Bool) (p : List String) :
    ∀ l : List FS,
      (∀ c ∈ l, get_file_contents inc excl gi c (p ++ [c.name]) =
        get_file_contents_pruned inc excl gi c (p ++ [c.name])) →
      contentsChildren inc excl gi p l = prunedChildren inc excl gi p l
  | [], _ => by rw [contentsChildren_nil, prunedChildren_nil]
  | c :: l, h => by
    rw [contentsChildren_cons, prunedChildren_cons, h c (by simp),
      childrenCongr inc excl gi p l (fun d hd => h d (by simp [hd]))]

/-- C4 (amended): the always-descend, filter-at-files extractor and the
variant that prunes excluded directories before descending produce identical
output whenever the ignore predicate is downward closed (a path it ignores has
all its extensions ignored, as a gitignore directory rule does); the bare-name
part of the exclusion set needs no such hypothesis.  For an arbitrary ignore
predicate the two traversals differ — see the counterexample. -/
theorem spec_c4_amended (inc excl : List String) (gi : String → Bool)
    (hcl : ∀ (q t : List String), t ≠ [] → gi (pathStr q) = true →
      gi (pathStr (q ++ t)) = true) :
    ∀ (e : FS) (p : List String),
      get_file_contents inc excl gi e p = get_file_contents_pruned inc excl gi e p := by
  intro e
  induction e using FS.recMem with
  | hfile n r =>
    intro p
    rw [get_file_contents_file, pruned_file]
  | hdir n cs ih =>
    intro p
    rw [get_file_contents_dir, pruned_dir]
    by_cases hex : should_exclude p excl gi = true
    · rw [if_pos hex]
      refine contentsChildren_eq_nil inc excl gi p _ (fun c hc => ?_)
      exact gfc_nil_under_excluded inc excl gi hcl c p [c.name] (by simp) hex
    · rw [if_neg hex]
      refine childrenCongr inc excl gi p _ (fun c hc => ?_)
      exact ih c (List.Perm.mem_iff (List.perm_insertionSort nameLe cs) |>.mp hc)
        (p ++ [c.name])

/-- C4 counterexample: with the ignore predicate that matches exactly the
directory string `r/d` (ignoring neither the file under it nor the root), the
leaf-filtering extractor still emits `r/d/a.txt` while the pruning variant
emits nothing, so the two traversals are not observationally equivalent for an
arbitrary ignore predicate. -/
theorem spec_c4_counterexample :
    get_file_contents ["a.txt"] [] (fun s => s == "r/d")
        (.dir "r" [.dir "d" [.file "a.txt" (.ok "x")]]) ["r"] ≠
      get_file_contents_pruned ["a.txt"] [] (fun s => s == "r/d")
        (.dir "r" [.dir "d" [.file "a.txt" (.ok "x")]]) ["r"] := by
  have h1 : get_file_contents ["a.txt"] [] (fun s => s == "r/d")
      (.dir "r" [.dir "d" [.file "a.txt" (.ok "x")]]) ["r"] =
      ["\nFile: r/d/a.txt\n===============\n", "x"] := by
    rw [get_file_contents_dir,
      show sortByName [FS.dir "d" [FS.file "a.txt" (.ok "x")]] =
        [FS.dir "d" [FS.file "a.txt" (.ok "x")]] from rfl,
      contentsChildren_cons, contentsChildren_nil, get_file_contents_dir,
      show sortByName [FS.file "a.txt" (.ok "x")] = [FS.file "a.txt" (.ok "x")] from rfl,
      contentsChildren_cons, contentsChildren_nil, get_file_contents_file]
    decide
  have h2 : get_file_contents_pruned ["a.txt"] [] (fun s => s == "r/d")
      (.dir "r" [.dir "d" [.file "a.txt" (.ok "x")]]) ["r"] = [] := by
    rw [pruned_dir, if_neg (by decide),
      show sortByName [FS.dir "d" [FS.file "a.txt" (.ok "x")]] =
        [FS.dir "d" [FS.file "a.txt" (.ok "x")]] from rfl,
      prunedChildren_cons, prunedChildren_nil, pruned_dir, if_pos (by decide)]
    rfl
  rw [h1, h2]
  decide

/-- Witness for the amended C4: the always-false ignore predicate is downward
closed, and the two traversals agree on a two-level snapshot. -/
theorem spec_c4_witness :
    get_file_contents ["a.txt"] [] (fun _ => false)
        (.dir "r" [.dir "d" [.file "a.txt" (.ok "x")]]) ["r"] =
      get_file_contents_pruned ["a.txt"] [] (fun _ => false)
        (.dir "r" [.dir "d" [.file "a.txt" (.ok "x")]]) ["r"] :=
  spec_c4_amended ["a.txt"] [] (fun _ => false)
    (fun q t ht hgi => by simp at hgi)
    (.dir "r" [.dir "d" [.file "a.txt" (.ok "x")]]) ["r"]
